import Mathlib

/-
  Verification of the dependency-graph test-series scheduler in
  `lib/pavilion/series.py`.

  The Python source is shallowly embedded: Python dicts become association
  lists (unique keys, insertion order preserved), the scheduler's mutable
  per-definition state becomes an explicit record threaded through step
  functions, and the external world (test completion markers, test results,
  filesystem links, test loading) is modelled by explicit oracle functions.
-/

namespace Pavilion

/-! ### The `union_dictionary` helper (series.py lines 24-40) -/

/-- Association-list model of a Python dict from condition keys to value
lists, as used for the `only_if` and `not_if` mappings.  Python dicts have
unique keys and preserve insertion order. -/
abbrev CondDict := List (String × List String)

/-- Python `key in d.keys()`. -/
def containsKey (d : CondDict) (k : String) : Bool :=
  d.any (fun kv => kv.1 == k)

/-- Python `d[k]`, as an optional lookup returning the first entry with the
given key. -/
def lookupD (d : CondDict) (k : String) : Option (List String) :=
  match d with
  | [] => none
  | kv :: rest => if kv.1 == k then some kv.2 else lookupD rest k

/-- The transformation the first loop of `union_dictionary` applies to one
entry of `dict1`: when the key also occurs in `dict2` the value becomes
`list(set(new_dict[key] + dict2[key]))`; Python leaves the element order of
`list(set(...))` unspecified, and `List.dedup` realises the same set. -/
def union_entry (dict2 : CondDict) (kv : String × List String) :
    String × List String :=
  match lookupD dict2 kv.1 with
  | some v2 => (kv.1, (kv.2 ++ v2).dedup)
  | none => kv

/-- `union_dictionary` from series.py: combines two dictionaries with
nested lists.  The first loop copies every entry of `dict1` (extending and
deduplicating shared keys and crossing them off `dict2_keys`); the second
loop copies the entries of `dict2` whose keys were not seen in `dict1`. -/
def union_dictionary (dict1 dict2 : CondDict) : CondDict :=
  dict1.map (union_entry dict2)
    ++ dict2.filter (fun kv => !(containsKey dict1 kv.1))

/-! ### The `SeriesManager` scheduler (series.py lines 68-219)

The scheduler's mutable state (`self.not_started`, `self.started`,
`self.finished`, the per-test `'obj'` keys created by `run_test`, and the
placeholder instances registered with `self.series_obj`) is threaded as an
explicit record.  The external world is an `Env` oracle: `doneTime t` is
the poll-loop iteration from which every instance of a launched test `t`
has its `RUN_COMPLETE` marker, and `passed t` says whether every instance
of `t` has result `PASS`. -/

/-- The fields of one entry of the `series` section that the scheduler
reads: `depends_on` (the dependency edges, `make_dep_graph`), the
`depends_pass` flag (compared against the string literal `'True'`), and
the number of resolved raw configs prepared for the test. -/
structure TestDef where
  depends_on : List String
  depends_pass : String
  num_configs : Nat
deriving DecidableEq

/-- The series configuration, an ordered map from test name to definition
(`self.series_section` and the derived `self.test_info`). -/
abbrev SeriesCfg := List (String × TestDef)

/-- Python `list(self.test_info.keys())` (`self.all_tests`). -/
def testNames (cfg : SeriesCfg) : List String := cfg.map Prod.fst

/-- Lookup of a test's definition by name. -/
def lookupDef (cfg : SeriesCfg) (t : String) : Option TestDef :=
  match cfg with
  | [] => none
  | kv :: rest => if kv.1 == t then some kv.2 else lookupDef rest t

/-- One synthesized skipped `TestRun` registered with the series by the
skip branch: built from one resolved config, given status `COMPLETE` with
a diagnostic note, and marked run-complete. -/
structure Placeholder where
  test : String
  config_index : Nat
  status_note : String
  complete : Bool
deriving DecidableEq

/-- External observations: `doneTime t` is the iteration from which all of
`t`'s instances have their `RUN_COMPLETE` marker (markers persist once
written), and `passed t` says whether every instance result is `PASS`. -/
structure Env where
  doneTime : String → Nat
  passed : String → Bool

/-- The scheduler's state: the three name lists, the set of tests for
which `run_test` has been invoked (which is exactly the set of tests whose
`test_info` entry has an `'obj'` key), the placeholder instances
registered with the series object, and the number of completed poll-loop
iterations. -/
structure SchedState where
  notStarted : List String
  started : List String
  finished : List String
  launched : List String
  placeholders : List Placeholder
  iter : Nat
deriving DecidableEq

/-- The state just after lines 133-136: all bookkeeping lists empty. -/
def initState : SchedState := ⟨[], [], [], [], [], 0⟩

/-- `run_test` (lines 174-182): invoke the external run command for the
test, record the returned instance handles under `'obj'`, and append the
test to `self.started`. -/
def run_test (s : SchedState) (t : String) : SchedState :=
  { s with launched := s.launched ++ [t], started := s.started ++ [t] }

/-- `is_done` (lines 185-193): `False` when the test has no `'obj'` key,
otherwise whether every instance's `RUN_COMPLETE` marker exists. -/
def is_done (env : Env) (s : SchedState) (t : String) : Bool :=
  s.launched.contains t && decide (env.doneTime t ≤ s.iter)

/-- `all_tests_passed` (lines 195-206): `False` when some listed test has
no `'obj'` key (it was never launched, e.g. it was skipped), otherwise
whether every instance of every listed test has result `PASS`. -/
def all_tests_passed (env : Env) (s : SchedState) (names : List String) :
    Bool :=
  names.all (fun p => s.launched.contains p && env.passed p)

/-- The diagnostic status message of the skip branch (line 163). -/
def skip_message : String := "Skipping. Previous test did not PASS."

/-- The placeholder instances the skip branch synthesizes: one per
resolved config, each complete with the diagnostic note. -/
def skip_placeholders (t : String) (n : Nat) : List Placeholder :=
  (List.range n).map (fun i => ⟨t, i, skip_message, true⟩)

/-- The body of the poll loop's `for test_name in temp_waiting` scan
(lines 147-170) applied to one waiting test name. -/
def process_waiting (cfg : SeriesCfg) (env : Env) (t : String)
    (s : SchedState) : SchedState :=
  match lookupDef cfg t with
  | none => s
  | some d =>
    if d.depends_on.all (fun w => s.finished.contains w) then
      if d.depends_pass == "True" then
        if all_tests_passed env s d.depends_on then
          let s1 := run_test s t
          { s1 with notStarted := s1.notStarted.erase t }
        else
          { s with
              placeholders :=
                s.placeholders ++ skip_placeholders t d.num_configs,
              notStarted := s.notStarted.erase t,
              finished := s.finished ++ [t] }
      else
        let s1 := run_test s t
        { s1 with notStarted := s1.notStarted.erase t }
    else s

/-- The scan over the snapshot `temp_waiting` of `self.not_started`. -/
def scan_waiting (cfg : SeriesCfg) (env : Env) :
    List String → SchedState → SchedState
  | [], s => s
  | t :: rest, s => scan_waiting cfg env rest (process_waiting cfg env t s)

/-- The loop of `check_and_update` (lines 208-214) over the snapshot
`temp_started` of `self.started`. -/
def check_go (env : Env) : List String → SchedState → SchedState
  | [], s => s
  | t :: rest, s =>
    if is_done env s t then
      check_go env rest
        { s with started := s.started.erase t,
                 finished := s.finished ++ [t] }
    else check_go env rest s

/-- `check_and_update` (lines 208-214). -/
def check_and_update (env : Env) (s : SchedState) : SchedState :=
  check_go env s.started s

/-- One iteration of the `while len(self.not_started) != 0` loop (lines
143-172): `check_and_update`, then the scan over the deep copy of
`self.not_started`, then `time.sleep(1)` (modelled as the iteration
counter advancing). -/
def loop_iteration (cfg : SeriesCfg) (env : Env) (s : SchedState) :
    SchedState :=
  let s1 := check_and_update env s
  let s2 := scan_waiting cfg env s1.notStarted s1
  { s2 with iter := s2.iter + 1 }

/-- The initial kick-off (lines 137-141): launch every test whose `prev`
list is empty, recomputing `self.not_started` as
`list(set(self.all_tests) - set(self.started))` after each launch.  The
Python set difference has unspecified order; the filter below realises the
same set. -/
def kickoff_go (allTests : List String) :
    SeriesCfg → SchedState → SchedState
  | [], s => s
  | (t, d) :: rest, s =>
    if d.depends_on.isEmpty then
      let s1 := run_test s t
      kickoff_go allTests rest
        { s1 with
            notStarted :=
              allTests.filter (fun x => !(s1.started.contains x)) }
    else kickoff_go allTests rest s

/-- The scheduler state at the end of setup, just before the poll loop. -/
def kickoff (cfg : SeriesCfg) : SchedState :=
  kickoff_go (testNames cfg) cfg initState

/-- The poll loop, with explicit fuel: `none` means the fuel ran out with
waiting tests remaining (the Python loop would still be running). -/
def poll_loop (cfg : SeriesCfg) (env : Env) :
    Nat → SchedState → Option SchedState
  | 0, s => if s.notStarted.isEmpty then some s else none
  | fuel + 1, s =>
    if s.notStarted.isEmpty then some s
    else poll_loop cfg env fuel (loop_iteration cfg env s)

/-- The whole of `SeriesManager.__init__` after setup: kick off the tests
without prerequisites, then run the poll loop. -/
def run_series_manager (cfg : SeriesCfg) (env : Env) (fuel : Nat) :
    Option SchedState :=
  poll_loop cfg env fuel (kickoff cfg)

/-- The scheduler state at the n-th loop iteration boundary (0 is the
state right after the initial kick-off). -/
def sched_after (cfg : SeriesCfg) (env : Env) : Nat → SchedState
  | 0 => kickoff cfg
  | n + 1 => loop_iteration cfg env (sched_after cfg env n)

/-! ### The three-set partition invariant (claim C8) -/

/-- A name is in exactly one of the three scheduler bookkeeping sets. -/
def ExactlyOne (s : SchedState) (t : String) : Prop :=
  (t ∈ s.notStarted ∧ t ∉ s.started ∧ t ∉ s.finished)
  ∨ (t ∉ s.notStarted ∧ t ∈ s.started ∧ t ∉ s.finished)
  ∨ (t ∉ s.notStarted ∧ t ∉ s.started ∧ t ∈ s.finished)

/-- The scheduler-state invariant: the three sets partition the test
names, each is duplicate-free, and every started test has been launched
(its `test_info` entry has an `'obj'` key). -/
structure SchedInv (names : List String) (s : SchedState) : Prop where
  partition : ∀ t ∈ names, ExactlyOne s t
  ns_names : ∀ t ∈ s.notStarted, t ∈ names
  st_names : ∀ t ∈ s.started, t ∈ names
  fin_names : ∀ t ∈ s.finished, t ∈ names
  ns_nodup : s.notStarted.Nodup
  st_nodup : s.started.Nodup
  fin_nodup : s.finished.Nodup
  st_launched : ∀ t ∈ s.started, t ∈ s.launched

/-! ### The `TestSeries` registry (series.py lines 222-346)

A test run handle is its numeric id and its storage path.  The series
directory is a list of entries in `os.listdir` order; an entry's name
either parses as an integer (`int(link_path.name)` succeeds; membership
links are named by the test's numeric id) or does not (`ValueError`), and
the entry either is a symlink to a directory or is not.  Loading a test
run by id (`TestRun.load`) is an external oracle that may fail with
`TestRunError`. -/

/-- A handle to a test run: its id and its storage path. -/
structure TestRunH where
  id : Nat
  path : String
deriving DecidableEq

/-- A directory entry name: either it parses as an integer or it does
not. -/
inductive EntryName where
  | num (n : Nat)
  | other (s : String)
deriving DecidableEq

/-- One entry of the series directory. -/
structure DirEntry where
  name : EntryName
  is_symlink_dir : Bool
deriving DecidableEq

/-- The two fatal outcomes of `TestSeries.from_id`: the series path does
not exist (`TestSeriesError`), or an entry that is not a symlink to a
directory was found (`raise ValueError(link_path)`). -/
inductive SeriesLoadError where
  | noSuchSeries
  | polluted (entry : DirEntry)
deriving DecidableEq

/-- The `for path in os.listdir(...)` loop of `from_id` (lines 302-324):
a symlink-to-directory entry with a non-numeric name is logged and
skipped; a numeric one is loaded, a load failure being logged and the
test omitted; any other entry raises immediately. -/
def from_id_go (load : Nat → Option TestRunH) :
    List DirEntry → List TestRunH → Except SeriesLoadError (List TestRunH)
  | [], tests => .ok tests
  | e :: rest, tests =>
    if e.is_symlink_dir then
      match e.name with
      | .num tid =>
        match load tid with
        | some t => from_id_go load rest (tests ++ [t])
        | none => from_id_go load rest tests
      | .other _ => from_id_go load rest tests
    else .error (.polluted e)

/-- `TestSeries.from_id` (lines 282-326): `none` for the directory means
the series path does not exist, which is fatal; otherwise the entries are
scanned and the recovered tests returned (they then become the
reconstructed series' membership). -/
def from_id (dir : Option (List DirEntry))
    (load : Nat → Option TestRunH) :
    Except SeriesLoadError (List TestRunH) :=
  match dir with
  | none => .error .noSuchSeries
  | some entries => from_id_go load entries []

/-- The series directory as `TestSeries.__init__` creates it for an
initial test list (lines 254-265): one symlink per test, named by the
test's id and pointing at the test's directory. -/
def create_series_dir (tests : List TestRunH) : List DirEntry :=
  tests.map (fun t => ⟨.num t.id, true⟩)

/-- The in-memory `self.tests` dict, keyed by test id. -/
abbrev TestMap := List (Nat × TestRunH)

/-- Python dict assignment `self.tests[test.id] = test`: overwrite in
place when the key exists, append otherwise. -/
def dict_insert (m : TestMap) (k : Nat) (v : TestRunH) : TestMap :=
  if m.any (fun p => p.1 == k) then
    m.map (fun p => if p.1 == k then (k, v) else p)
  else m ++ [(k, v)]

/-- The outcome of `TestSeries.add_tests`: the final in-memory tests
dict, the membership links created by this call (in order), and whether a
`TestSeriesError` was raised. -/
structure AddResult where
  tests : TestMap
  links : List Nat
  errored : Bool
deriving DecidableEq

/-- The loop of `add_tests` (lines 335-346): each test is first inserted
into the in-memory dict, then its symlink is attempted; an `OSError`
raises a `TestSeriesError` immediately, with no rollback of anything done
so far. -/
def add_tests_go (linkOk : TestRunH → Bool) :
    List TestRunH → TestMap → List Nat → AddResult
  | [], tests, links => ⟨tests, links, false⟩
  | t :: rest, tests, links =>
    let tests1 := dict_insert tests t.id t
    if linkOk t then add_tests_go linkOk rest tests1 (links ++ [t.id])
    else ⟨tests1, links, true⟩

/-- `TestSeries.add_tests`, starting from the given in-memory dict, with
the filesystem's behaviour given by the `linkOk` oracle. -/
def add_tests (linkOk : TestRunH → Bool) (tests : TestMap)
    (objs : List TestRunH) : AddResult :=
  add_tests_go linkOk objs tests []

/-! ### Claim C6: kick-off of tests without prerequisites -/

/-- The names of the tests with an empty `depends_on` list, in
configuration order. -/
def root_names (cfg : SeriesCfg) : List String :=
  (cfg.filter (fun kv => kv.2.depends_on.isEmpty)).map Prod.fst

/-- The largest completion time over the series' tests: from this
iteration on, every launched test is observed done. -/
def max_done (env : Env) (names : List String) : Nat :=
  names.foldr (fun t m => max (env.doneTime t) m) 0

theorem union_entry_fst (dict2 : CondDict) (kv : String × List String) :
    (union_entry dict2 kv).1 = kv.1 := by
  cases h : lookupD dict2 kv.1 <;> simp [union_entry, h]

theorem containsKey_eq_isSome (d : CondDict) (k : String) :
    containsKey d k = (lookupD d k).isSome := by
  induction d with
  | nil => simp [containsKey, lookupD]
  | cons kv rest ih =>
    cases h : kv.1 == k <;> simp [containsKey, lookupD, h, ← ih]

theorem lookupD_append (a b : CondDict) (k : String) :
    lookupD (a ++ b) k
      = match lookupD a k with
        | some v => some v
        | none => lookupD b k := by
  induction a with
  | nil => simp [lookupD]
  | cons kv rest ih =>
    cases h : kv.1 == k <;> simp [lookupD, h, ih]

theorem lookupD_map_union_entry (dict2 d1 : CondDict) (k : String) :
    lookupD (d1.map (union_entry dict2)) k
      = (lookupD d1 k).map (fun v1 =>
          match lookupD dict2 k with
          | some v2 => (v1 ++ v2).dedup
          | none => v1) := by
  induction d1 with
  | nil => simp [lookupD]
  | cons kv rest ih =>
    cases h : kv.1 == k with
    | true =>
      have hk : kv.1 = k := by simpa using h
      have hfst : (union_entry dict2 kv).1 == k := by
        rw [union_entry_fst]; exact h
      cases h2 : lookupD dict2 k <;>
        simp [lookupD, hfst, union_entry, hk, h2]
    | false =>
      have hfst : ((union_entry dict2 kv).1 == k) = false := by
        rw [union_entry_fst]; exact h
      simp [lookupD, hfst, h, ih]

theorem lookupD_filter_not_in_d1 (d1 d2 : CondDict) (k : String)
    (h : containsKey d1 k = false) :
    lookupD (d2.filter (fun kv => !(containsKey d1 kv.1))) k
      = lookupD d2 k := by
  induction d2 with
  | nil => simp [lookupD]
  | cons kv rest ih =>
    cases hk : kv.1 == k with
    | true =>
      have hkk : kv.1 = k := by simpa using hk
      simp [List.filter, lookupD, hk, hkk, h]
    | false =>
      cases hc : containsKey d1 kv.1 <;>
        simp [List.filter, lookupD, hk, hc, ih]

/-- Claim C4: merging two conditional-predicate mappings produces a mapping
whose key set is exactly the union of the inputs' key sets; a key present in
both maps to the duplicate-free union of the two value lists, and a key
present in only one input keeps its value unchanged. -/
theorem union_dictionary_spec (d1 d2 : CondDict) (k : String) :
    ((lookupD (union_dictionary d1 d2) k).isSome
        ↔ ((lookupD d1 k).isSome ∨ (lookupD d2 k).isSome))
    ∧ (∀ v1 v2, lookupD d1 k = some v1 → lookupD d2 k = some v2 →
        lookupD (union_dictionary d1 d2) k = some ((v1 ++ v2).dedup)
          ∧ ((v1 ++ v2).dedup).Nodup
          ∧ ∀ x, x ∈ (v1 ++ v2).dedup ↔ (x ∈ v1 ∨ x ∈ v2))
    ∧ (∀ v1, lookupD d1 k = some v1 → lookupD d2 k = none →
        lookupD (union_dictionary d1 d2) k = some v1)
    ∧ (∀ v2, lookupD d1 k = none → lookupD d2 k = some v2 →
        lookupD (union_dictionary d1 d2) k = some v2) := by
  have hmain : lookupD (union_dictionary d1 d2) k
      = match lookupD d1 k, lookupD d2 k with
        | some v1, some v2 => some ((v1 ++ v2).dedup)
        | some v1, none => some v1
        | none, _ => lookupD d2 k := by
    unfold union_dictionary
    rw [lookupD_append, lookupD_map_union_entry]
    cases h1 : lookupD d1 k with
    | some v1 => cases h2 : lookupD d2 k <;> simp [h2]
    | none =>
      have hc : containsKey d1 k = false := by
        rw [containsKey_eq_isSome, h1]; rfl
      rw [lookupD_filter_not_in_d1 d1 d2 k hc]
      cases h2 : lookupD d2 k <;> simp
  refine ⟨?_, ?_, ?_, ?_⟩
  · rw [hmain]
    cases h1 : lookupD d1 k <;> cases h2 : lookupD d2 k <;> simp
  · intro v1 v2 h1 h2
    rw [hmain, h1, h2]
    refine ⟨rfl, List.nodup_dedup _, ?_⟩
    intro x
    simp [List.mem_dedup]
  · intro v1 h1 h2
    rw [hmain, h1, h2]
  · intro v2 h1 h2
    rw [hmain, h1, h2]

/-- Witness for claim C4 at a concrete pair of mappings sharing the key
`"a"`, with `"b"` only in the first input and `"c"` only in the second. -/
theorem union_dictionary_spec_witness :
    lookupD (union_dictionary [("a", ["x", "y"]), ("b", ["u"])]
        [("a", ["y", "z"]), ("c", ["w"])]) "a"
      = some ((["x", "y"] ++ ["y", "z"]).dedup)
    ∧ lookupD (union_dictionary [("a", ["x", "y"]), ("b", ["u"])]
        [("a", ["y", "z"]), ("c", ["w"])]) "b" = some ["u"]
    ∧ lookupD (union_dictionary [("a", ["x", "y"]), ("b", ["u"])]
        [("a", ["y", "z"]), ("c", ["w"])]) "c" = some ["w"] := by
  refine ⟨?_, ?_, ?_⟩
  · exact ((union_dictionary_spec [("a", ["x", "y"]), ("b", ["u"])]
      [("a", ["y", "z"]), ("c", ["w"])] "a").2.1 ["x", "y"] ["y", "z"]
      rfl rfl).1
  · exact (union_dictionary_spec [("a", ["x", "y"]), ("b", ["u"])]
      [("a", ["y", "z"]), ("c", ["w"])] "b").2.2.1 ["u"] rfl rfl
  · exact (union_dictionary_spec [("a", ["x", "y"]), ("b", ["u"])]
      [("a", ["y", "z"]), ("c", ["w"])] "c").2.2.2 ["w"] rfl rfl

/-! ### Basic bridging lemmas -/

theorem contains_iff_mem (l : List String) (a : String) :
    l.contains a = true ↔ a ∈ l := by
  simp [List.contains, List.elem_iff]

theorem all_tests_passed_eq_false (env : Env) (s : SchedState)
    (names : List String)
    (h : ∃ p ∈ names,
      s.launched.contains p = false ∨ env.passed p = false) :
    all_tests_passed env s names = false := by
  obtain ⟨p, hp, hcase⟩ := h
  cases hall : all_tests_passed env s names
  · rfl
  · exfalso
    have hall' := List.all_eq_true.mp hall p hp
    rw [Bool.and_eq_true] at hall'
    rcases hcase with hc | hc
    · rw [hc] at hall'; exact Bool.false_ne_true hall'.1
    · rw [hc] at hall'; exact Bool.false_ne_true hall'.2

theorem lookupDef_unique (cfg : SeriesCfg)
    (hnodup : (testNames cfg).Nodup) {t : String} {d1 d2 : TestDef}
    (h1 : (t, d1) ∈ cfg) (h2 : (t, d2) ∈ cfg) : d1 = d2 := by
  induction cfg with
  | nil => cases h1
  | cons kv rest ih =>
    have hcons : (∀ (x : TestDef), (kv.1, x) ∉ rest)
        ∧ (List.map Prod.fst rest).Nodup := by
      simpa [testNames] using hnodup
    rcases List.mem_cons.mp h1 with he1 | hm1 <;>
      rcases List.mem_cons.mp h2 with he2 | hm2
    · exact congrArg Prod.snd (he1.trans he2.symm)
    · exfalso
      have hfst : kv.1 = t := by rw [← he1]
      exact hcons.1 d2 (by rw [hfst]; exact hm2)
    · exfalso
      have hfst : kv.1 = t := by rw [← he2]
      exact hcons.1 d1 (by rw [hfst]; exact hm1)
    · exact ih (by simpa [testNames] using hcons.2) hm1 hm2

/-! ### Claim C1: the pass-gating skip branch -/

/-- Claim C1: when a `depends_pass` definition is eligible and some
prerequisite either was never launched (it was skipped) or has a
non-passing aggregate result, the loop body does not invoke the launch
operation: it synthesizes exactly one complete placeholder instance per
resolved config, each carrying the diagnostic note
`Skipping. Previous test did not PASS.`, registers them with the series,
and moves the definition directly from the pending set to the finished
(skipped) set. -/
theorem depends_pass_gating_skips (cfg : SeriesCfg) (env : Env)
    (t : String) (d : TestDef) (s : SchedState)
    (hlook : lookupDef cfg t = some d)
    (hdp : d.depends_pass = "True")
    (hready : d.depends_on.all (fun w => s.finished.contains w) = true)
    (hfail : ∃ p ∈ d.depends_on,
      s.launched.contains p = false ∨ env.passed p = false) :
    (process_waiting cfg env t s).launched = s.launched
    ∧ (process_waiting cfg env t s).started = s.started
    ∧ (process_waiting cfg env t s).placeholders
        = s.placeholders ++ skip_placeholders t d.num_configs
    ∧ (skip_placeholders t d.num_configs).length = d.num_configs
    ∧ (∀ p ∈ skip_placeholders t d.num_configs,
        p.test = t
          ∧ p.status_note = "Skipping. Previous test did not PASS."
          ∧ p.complete = true)
    ∧ (process_waiting cfg env t s).notStarted = s.notStarted.erase t
    ∧ (process_waiting cfg env t s).finished = s.finished ++ [t] := by
  have hdpb : (d.depends_pass == "True") = true := by simp [hdp]
  have hnall : ¬ (all_tests_passed env s d.depends_on = true) := by
    rw [all_tests_passed_eq_false env s d.depends_on hfail]
    exact Bool.false_ne_true
  have heq : process_waiting cfg env t s
      = { s with
            placeholders :=
              s.placeholders ++ skip_placeholders t d.num_configs,
            notStarted := s.notStarted.erase t,
            finished := s.finished ++ [t] } := by
    simp only [process_waiting, hlook]
    rw [if_pos hready, if_pos hdpb, if_neg hnall]
  refine ⟨?_, ?_, ?_, ?_, ?_, ?_, ?_⟩
  · rw [heq]
  · rw [heq]
  · rw [heq]
  · simp [skip_placeholders]
  · intro p hp
    simp only [skip_placeholders, List.mem_map, List.mem_range] at hp
    obtain ⟨i, _, rfl⟩ := hp
    exact ⟨rfl, rfl, rfl⟩
  · rw [heq]
  · rw [heq]

/-- Witness for claim C1: definition `b` depends on `a` with
`depends_pass` set to `True`; `a` is finished but its result is not
`PASS`, so two placeholders (one per config) are registered and `b` is
finished without being launched. -/
theorem depends_pass_gating_skips_witness :
    (process_waiting [("a", ⟨[], "False", 1⟩), ("b", ⟨["a"], "True", 2⟩)]
        ⟨fun _ => 0, fun _ => false⟩ "b"
        ⟨["b"], [], ["a"], ["a"], [], 3⟩).placeholders
      = [] ++ skip_placeholders "b" 2
    ∧ (process_waiting [("a", ⟨[], "False", 1⟩), ("b", ⟨["a"], "True", 2⟩)]
        ⟨fun _ => 0, fun _ => false⟩ "b"
        ⟨["b"], [], ["a"], ["a"], [], 3⟩).finished = ["a"] ++ ["b"] := by
  have h := depends_pass_gating_skips
    [("a", ⟨[], "False", 1⟩), ("b", ⟨["a"], "True", 2⟩)]
    ⟨fun _ => 0, fun _ => false⟩ "b" ⟨["a"], "True", 2⟩
    ⟨["b"], [], ["a"], ["a"], [], 3⟩ rfl rfl (by decide)
    ⟨"a", by simp, Or.inr rfl⟩
  exact ⟨h.2.2.1, h.2.2.2.2.2.2⟩

/-! ### Claim C9: gating only when `depends_pass` is exactly 'True' -/

/-- Claim C9: the pass-gating branch fires only when `depends_pass` is the
exact string `True`; for any other value an eligible definition is
launched unconditionally, no matter what its prerequisites' results are
(the environment, including the pass oracle, is arbitrary here). -/
theorem non_true_depends_pass_launches (cfg : SeriesCfg) (env : Env)
    (t : String) (d : TestDef) (s : SchedState)
    (hlook : lookupDef cfg t = some d)
    (hdp : d.depends_pass ≠ "True")
    (hready : d.depends_on.all (fun w => s.finished.contains w) = true) :
    (process_waiting cfg env t s).launched = s.launched ++ [t]
    ∧ (process_waiting cfg env t s).started = s.started ++ [t]
    ∧ (process_waiting cfg env t s).notStarted = s.notStarted.erase t
    ∧ (process_waiting cfg env t s).finished = s.finished
    ∧ (process_waiting cfg env t s).placeholders = s.placeholders := by
  have hdpb : ¬ ((d.depends_pass == "True") = true) := by
    simpa using hdp
  have heq : process_waiting cfg env t s
      = { s with
            launched := s.launched ++ [t],
            started := s.started ++ [t],
            notStarted := s.notStarted.erase t } := by
    simp only [process_waiting, hlook]
    rw [if_pos hready, if_neg hdpb]
    rfl
  refine ⟨?_, ?_, ?_, ?_, ?_⟩ <;> rw [heq]

/-- Witness for claim C9: `depends_pass` is the lowercase string `true`
and the prerequisite's result is not `PASS`, yet the test is launched and
no placeholder is registered. -/
theorem non_true_depends_pass_launches_witness :
    (process_waiting [("a", ⟨[], "False", 1⟩), ("b", ⟨["a"], "true", 1⟩)]
        ⟨fun _ => 0, fun _ => false⟩ "b"
        ⟨["b"], [], ["a"], ["a"], [], 3⟩).launched = ["a"] ++ ["b"]
    ∧ (process_waiting [("a", ⟨[], "False", 1⟩), ("b", ⟨["a"], "true", 1⟩)]
        ⟨fun _ => 0, fun _ => false⟩ "b"
        ⟨["b"], [], ["a"], ["a"], [], 3⟩).placeholders = [] := by
  have h := non_true_depends_pass_launches
    [("a", ⟨[], "False", 1⟩), ("b", ⟨["a"], "true", 1⟩)]
    ⟨fun _ => 0, fun _ => false⟩ "b" ⟨["a"], "true", 1⟩
    ⟨["b"], [], ["a"], ["a"], [], 3⟩ rfl (by decide) (by decide)
  exact ⟨h.1, h.2.2.2.2⟩

theorem kickoff_go_spec (allTests : List String) :
    ∀ (R : SeriesCfg) (s : SchedState),
    (kickoff_go allTests R s).started = s.started ++ root_names R
    ∧ (kickoff_go allTests R s).launched = s.launched ++ root_names R
    ∧ (kickoff_go allTests R s).finished = s.finished
    ∧ (kickoff_go allTests R s).placeholders = s.placeholders
    ∧ (kickoff_go allTests R s).iter = s.iter
    ∧ (root_names R = [] →
        (kickoff_go allTests R s).notStarted = s.notStarted)
    ∧ (root_names R ≠ [] →
        (kickoff_go allTests R s).notStarted
          = allTests.filter
              (fun x => !((kickoff_go allTests R s).started.contains x))) := by
  intro R
  induction R with
  | nil =>
    intro s
    refine ⟨by simp [kickoff_go, root_names], by simp [kickoff_go, root_names],
      rfl, rfl, rfl, fun _ => rfl, fun h => absurd rfl h⟩
  | cons p rest ih =>
    intro s
    obtain ⟨t, d⟩ := p
    by_cases hroot : d.depends_on.isEmpty = true
    · have hrn : root_names ((t, d) :: rest) = t :: root_names rest := by
        simp [root_names, hroot]
      have hred : kickoff_go allTests ((t, d) :: rest) s
          = kickoff_go allTests rest
              { notStarted :=
                  allTests.filter (fun x => !((s.started ++ [t]).contains x)),
                started := s.started ++ [t],
                finished := s.finished,
                launched := s.launched ++ [t],
                placeholders := s.placeholders,
                iter := s.iter } := by
        simp only [kickoff_go]
        rw [if_pos hroot]
        rfl
      obtain ⟨ihst, ihla, ihfin, ihpl, ihit, ihns1, ihns2⟩ :=
        ih (SchedState.mk
          (allTests.filter (fun x => !((s.started ++ [t]).contains x)))
          (s.started ++ [t]) s.finished (s.launched ++ [t])
          s.placeholders s.iter)
      rw [hrn, hred]
      refine ⟨?_, ?_, ?_, ?_, ?_, ?_, ?_⟩
      · rw [ihst]; simp
      · rw [ihla]; simp
      · rw [ihfin]
      · rw [ihpl]
      · rw [ihit]
      · intro h; exact absurd h (List.cons_ne_nil _ _)
      · intro _
        by_cases hrest : root_names rest = []
        · rw [ihns1 hrest, ihst, hrest, List.append_nil]
        · rw [ihns2 hrest]
    · have hrn : root_names ((t, d) :: rest) = root_names rest := by
        simp [root_names, hroot]
      have hred : kickoff_go allTests ((t, d) :: rest) s
          = kickoff_go allTests rest s := by
        simp only [kickoff_go]
        rw [if_neg hroot]
      rw [hrn, hred]
      exact ih s

/-- Claim C6: every definition with an empty prerequisite list is launched
during setup, before the first poll-loop iteration, and no definition with
a non-empty prerequisite list is; no placeholder is registered and nothing
is finished at that point. -/
theorem roots_launched_at_setup (cfg : SeriesCfg)
    (hnodup : (testNames cfg).Nodup) :
    (∀ t, t ∈ (kickoff cfg).launched
        ↔ ∃ d, (t, d) ∈ cfg ∧ d.depends_on = [])
    ∧ (∀ t d, (t, d) ∈ cfg → d.depends_on ≠ [] →
        t ∉ (kickoff cfg).launched)
    ∧ (kickoff cfg).placeholders = []
    ∧ (kickoff cfg).finished = [] := by
  obtain ⟨hst, hla, hfin, hpl, hit, hns1, hns2⟩ :=
    kickoff_go_spec (testNames cfg) cfg initState
  have hlaunched : (kickoff cfg).launched = root_names cfg := by
    show (kickoff_go (testNames cfg) cfg initState).launched = root_names cfg
    rw [hla]
    rfl
  have hmem : ∀ t, t ∈ root_names cfg
      ↔ ∃ d, (t, d) ∈ cfg ∧ d.depends_on = [] := by
    intro t
    simp only [root_names, List.mem_map, List.mem_filter]
    constructor
    · rintro ⟨⟨t', d⟩, ⟨hm, he⟩, hfst⟩
      exact ⟨d, by rwa [← hfst], by simpa using he⟩
    · rintro ⟨d, hm, he⟩
      exact ⟨(t, d), ⟨hm, by simp [he]⟩, rfl⟩
  refine ⟨fun t => by rw [hlaunched]; exact hmem t, ?_, ?_, ?_⟩
  · intro t d hm hne hin
    rw [hlaunched] at hin
    obtain ⟨d', hm', he'⟩ := (hmem t).mp hin
    exact hne (lookupDef_unique cfg hnodup hm hm' ▸ he')
  · show (kickoff_go (testNames cfg) cfg initState).placeholders = []
    rw [hpl]
    rfl
  · show (kickoff_go (testNames cfg) cfg initState).finished = []
    rw [hfin]
    rfl

/-- Witness for claim C6: `a` has no prerequisites and is launched at
setup; `b` depends on `a` and is not. -/
theorem roots_launched_at_setup_witness :
    "a" ∈ (kickoff [("a", ⟨[], "False", 1⟩),
        ("b", ⟨["a"], "True", 1⟩)]).launched
    ∧ "b" ∉ (kickoff [("a", ⟨[], "False", 1⟩),
        ("b", ⟨["a"], "True", 1⟩)]).launched := by
  have h := roots_launched_at_setup
    [("a", ⟨[], "False", 1⟩), ("b", ⟨["a"], "True", 1⟩)] (by decide)
  refine ⟨(h.1 "a").mpr ⟨⟨[], "False", 1⟩, by simp, rfl⟩, ?_⟩
  exact h.2.1 "b" ⟨["a"], "True", 1⟩ (by simp) (by decide)

/-! ### Frame and monotonicity lemmas about one loop iteration -/

theorem check_go_frame (env : Env) :
    ∀ (L : List String) (s : SchedState),
    (check_go env L s).notStarted = s.notStarted
    ∧ (check_go env L s).launched = s.launched
    ∧ (check_go env L s).placeholders = s.placeholders
    ∧ (check_go env L s).iter = s.iter := by
  intro L
  induction L with
  | nil => intro s; exact ⟨rfl, rfl, rfl, rfl⟩
  | cons t rest ih =>
    intro s
    by_cases hd : is_done env s t = true
    · have hred : check_go env (t :: rest) s
          = check_go env rest
              { s with started := s.started.erase t,
                       finished := s.finished ++ [t] } := by
        simp only [check_go]
        rw [if_pos hd]
      rw [hred]
      exact ih _
    · have hred : check_go env (t :: rest) s = check_go env rest s := by
        simp only [check_go]
        rw [if_neg hd]
      rw [hred]
      exact ih s

theorem check_go_finished_mono (env : Env) :
    ∀ (L : List String) (s : SchedState) (p : String),
    p ∈ s.finished → p ∈ (check_go env L s).finished := by
  intro L
  induction L with
  | nil => intro s p hp; exact hp
  | cons t rest ih =>
    intro s p hp
    by_cases hd : is_done env s t = true
    · have hred : check_go env (t :: rest) s
          = check_go env rest
              { s with started := s.started.erase t,
                       finished := s.finished ++ [t] } := by
        simp only [check_go]
        rw [if_pos hd]
      rw [hred]
      exact ih _ p (List.mem_append.mpr (Or.inl hp))
    · have hred : check_go env (t :: rest) s = check_go env rest s := by
        simp only [check_go]
        rw [if_neg hd]
      rw [hred]
      exact ih s p hp

theorem process_waiting_finished_mono (cfg : SeriesCfg) (env : Env)
    (t : String) (s : SchedState) (p : String) (hp : p ∈ s.finished) :
    p ∈ (process_waiting cfg env t s).finished := by
  cases hlook : lookupDef cfg t with
  | none => simp only [process_waiting, hlook]; exact hp
  | some d =>
    simp only [process_waiting, hlook]
    by_cases h1 : (d.depends_on.all fun w => s.finished.contains w) = true
    · rw [if_pos h1]
      by_cases h2 : (d.depends_pass == "True") = true
      · rw [if_pos h2]
        by_cases h3 : all_tests_passed env s d.depends_on = true
        · rw [if_pos h3]; exact hp
        · rw [if_neg h3]
          exact List.mem_append.mpr (Or.inl hp)
      · rw [if_neg h2]; exact hp
    · rw [if_neg h1]; exact hp

theorem process_waiting_preserves_other_ns (cfg : SeriesCfg) (env : Env)
    (u t : String) (s : SchedState) (hne : t ≠ u)
    (hmem : t ∈ s.notStarted) :
    t ∈ (process_waiting cfg env u s).notStarted := by
  cases hlook : lookupDef cfg u with
  | none => simp only [process_waiting, hlook]; exact hmem
  | some d =>
    simp only [process_waiting, hlook]
    by_cases h1 : (d.depends_on.all fun w => s.finished.contains w) = true
    · rw [if_pos h1]
      by_cases h2 : (d.depends_pass == "True") = true
      · rw [if_pos h2]
        by_cases h3 : all_tests_passed env s d.depends_on = true
        · rw [if_pos h3]
          exact (List.mem_erase_of_ne hne).mpr hmem
        · rw [if_neg h3]
          exact (List.mem_erase_of_ne hne).mpr hmem
      · rw [if_neg h2]
        exact (List.mem_erase_of_ne hne).mpr hmem
    · rw [if_neg h1]; exact hmem

theorem process_waiting_ns_subset (cfg : SeriesCfg) (env : Env)
    (u : String) (s : SchedState) (x : String)
    (hx : x ∈ (process_waiting cfg env u s).notStarted) :
    x ∈ s.notStarted := by
  revert hx
  cases hlook : lookupDef cfg u with
  | none => simp only [process_waiting, hlook]; exact id
  | some d =>
    simp only [process_waiting, hlook]
    by_cases h1 : (d.depends_on.all fun w => s.finished.contains w) = true
    · rw [if_pos h1]
      by_cases h2 : (d.depends_pass == "True") = true
      · rw [if_pos h2]
        by_cases h3 : all_tests_passed env s d.depends_on = true
        · rw [if_pos h3]
          exact fun hx => List.erase_subset _ _ hx
        · rw [if_neg h3]
          exact fun hx => List.erase_subset _ _ hx
      · rw [if_neg h2]
        exact fun hx => List.erase_subset _ _ hx
    · rw [if_neg h1]; exact id

theorem scan_waiting_finished_mono (cfg : SeriesCfg) (env : Env) :
    ∀ (L : List String) (s : SchedState) (p : String),
    p ∈ s.finished → p ∈ (scan_waiting cfg env L s).finished := by
  intro L
  induction L with
  | nil => intro s p hp; exact hp
  | cons u rest ih =>
    intro s p hp
    exact ih _ p (process_waiting_finished_mono cfg env u s p hp)

theorem scan_waiting_ns_subset (cfg : SeriesCfg) (env : Env) :
    ∀ (L : List String) (s : SchedState) (x : String),
    x ∈ (scan_waiting cfg env L s).notStarted → x ∈ s.notStarted := by
  intro L
  induction L with
  | nil => intro s x hx; exact hx
  | cons u rest ih =>
    intro s x hx
    exact process_waiting_ns_subset cfg env u s x (ih _ x hx)

theorem process_waiting_removed (cfg : SeriesCfg) (env : Env)
    (u t : String) (s : SchedState)
    (hmem : t ∈ s.notStarted)
    (hrem : t ∉ (process_waiting cfg env u s).notStarted) :
    u = t ∧ ∃ d, lookupDef cfg u = some d
      ∧ (d.depends_on.all fun w => s.finished.contains w) = true := by
  by_cases hne : u = t
  · subst hne
    refine ⟨rfl, ?_⟩
    cases hlook : lookupDef cfg u with
    | none =>
      simp only [process_waiting, hlook] at hrem
      exact absurd hmem hrem
    | some d =>
      simp only [process_waiting, hlook] at hrem
      refine ⟨d, rfl, ?_⟩
      by_cases h1 : (d.depends_on.all fun w => s.finished.contains w) = true
      · exact h1
      · rw [if_neg h1] at hrem
        exact absurd hmem hrem
  · exact absurd (process_waiting_preserves_other_ns cfg env u t s
      (fun h => hne h.symm) hmem) hrem

theorem scan_waiting_removed_ready (cfg : SeriesCfg) (env : Env)
    (t : String) (d : TestDef) (hlook : lookupDef cfg t = some d) :
    ∀ (L : List String) (s : SchedState),
    t ∈ s.notStarted →
    t ∉ (scan_waiting cfg env L s).notStarted →
    ∀ p ∈ d.depends_on, p ∈ (scan_waiting cfg env L s).finished := by
  intro L
  induction L with
  | nil => intro s hmem hrem; exact absurd hmem hrem
  | cons u rest ih =>
    intro s hmem hrem p hp
    simp only [scan_waiting] at hrem ⊢
    by_cases hin : t ∈ (process_waiting cfg env u s).notStarted
    · exact ih (process_waiting cfg env u s) hin hrem p hp
    · obtain ⟨hut, d', hlook', hready⟩ :=
        process_waiting_removed cfg env u t s hmem hin
      subst hut
      have hd : d = d' := by
        rw [hlook] at hlook'
        exact Option.some.inj hlook'
      rw [← hd] at hready
      have hp' : p ∈ s.finished :=
        (contains_iff_mem _ _).mp (List.all_eq_true.mp hready p hp)
      exact scan_waiting_finished_mono cfg env rest _ p
        (process_waiting_finished_mono cfg env u s p hp')

/-! ### Claim C2: eligibility requires terminal prerequisites -/

/-- Claim C2: a definition with prerequisites has the gating rule applied
to it (it leaves the pending set, by launch or by skip) only in an
iteration in which every one of its prerequisites is already in the
finished set (which holds the `Finished` and the `Skipped` definitions
alike).  The environment, and in particular the pass oracle, is arbitrary:
eligibility does not depend on whether the prerequisites passed. -/
theorem eligibility_requires_terminal_prereqs (cfg : SeriesCfg) (env : Env)
    (s : SchedState) (t : String) (d : TestDef)
    (hlook : lookupDef cfg t = some d)
    (hne : d.depends_on ≠ [])
    (hmem : t ∈ s.notStarted)
    (hrem : t ∉ (loop_iteration cfg env s).notStarted) :
    ∀ p ∈ d.depends_on, p ∈ (loop_iteration cfg env s).finished := by
  intro p hp
  have hmem1 : t ∈ (check_and_update env s).notStarted := by
    show t ∈ (check_go env s.started s).notStarted
    rw [(check_go_frame env s.started s).1]
    exact hmem
  have hrem2 : t ∉ (scan_waiting cfg env
      (check_and_update env s).notStarted (check_and_update env s)).notStarted := by
    intro hcon
    exact hrem hcon
  exact scan_waiting_removed_ready cfg env t d hlook
    (check_and_update env s).notStarted (check_and_update env s)
    hmem1 hrem2 p hp

/-- Witness for claim C2: `b` depends on `a`; `a` was launched and is done
at iteration 0, so the iteration moves `a` to finished and evaluates `b`,
and indeed `a` is in the finished set of the resulting state. -/
theorem eligibility_requires_terminal_prereqs_witness :
    "a" ∈ (loop_iteration
        [("a", ⟨[], "False", 1⟩), ("b", ⟨["a"], "False", 1⟩)]
        ⟨fun _ => 0, fun _ => true⟩
        ⟨["b"], ["a"], [], ["a"], [], 0⟩).finished := by
  exact eligibility_requires_terminal_prereqs
    [("a", ⟨[], "False", 1⟩), ("b", ⟨["a"], "False", 1⟩)]
    ⟨fun _ => 0, fun _ => true⟩
    ⟨["b"], ["a"], [], ["a"], [], 0⟩ "b" ⟨["a"], "False", 1⟩
    rfl (by decide) (by decide) (by decide) "a" (by simp)

/-! ### Claim C5: create/load round trip -/

theorem from_id_go_create (load : Nat → Option TestRunH) :
    ∀ (tests : List TestRunH) (acc : List TestRunH),
    from_id_go load (create_series_dir tests) acc
      = .ok (acc ++ tests.filterMap (fun t => load t.id)) := by
  intro tests
  induction tests with
  | nil => intro acc; simp [create_series_dir, from_id_go]
  | cons t rest ih =>
    intro acc
    simp only [create_series_dir, List.map_cons] at *
    cases hl : load t.id with
    | some u =>
      simp only [from_id_go, if_pos rfl, hl]
      rw [ih (acc ++ [u])]
      simp [List.filterMap_cons, hl]
    | none =>
      simp only [from_id_go, if_pos rfl, hl]
      rw [ih acc]
      simp [List.filterMap_cons, hl]

theorem filterMap_load_self (load : Nat → Option TestRunH) :
    ∀ (tests : List TestRunH), (∀ t ∈ tests, load t.id = some t) →
    tests.filterMap (fun t => load t.id) = tests := by
  intro tests
  induction tests with
  | nil => intro _; rfl
  | cons t rest ih =>
    intro h
    rw [List.filterMap_cons, h t (List.mem_cons_self t rest),
      ih (fun u hu => h u (List.mem_cons_of_mem t hu))]

/-- Claim C5: a series created with an initial list of instances and then
loaded back by id recovers, in general, exactly those instances that
still load (individual load failures are omitted without failing the
load); when every instance still loads, it recovers exactly the original
instances. -/
theorem series_round_trip (tests : List TestRunH)
    (load : Nat → Option TestRunH) :
    from_id (some (create_series_dir tests)) load
      = .ok (tests.filterMap (fun t => load t.id))
    ∧ ((∀ t ∈ tests, load t.id = some t) →
        from_id (some (create_series_dir tests)) load = .ok tests) := by
  have h1 : from_id (some (create_series_dir tests)) load
      = .ok (tests.filterMap (fun t => load t.id)) := by
    show from_id_go load (create_series_dir tests) []
      = .ok (tests.filterMap (fun t => load t.id))
    rw [from_id_go_create load tests []]
    rfl
  refine ⟨h1, fun hall => ?_⟩
  rw [h1, filterMap_load_self load tests hall]

/-- Witness for claim C5: three instances A, B, C with ids 1, 2, 3 are
created and recovered exactly by the load. -/
theorem series_round_trip_witness :
    from_id (some (create_series_dir
        [⟨1, "pA"⟩, ⟨2, "pB"⟩, ⟨3, "pC"⟩]))
      (fun n => if n = 1 then some ⟨1, "pA"⟩
        else if n = 2 then some ⟨2, "pB"⟩
        else if n = 3 then some ⟨3, "pC"⟩ else none)
      = .ok [⟨1, "pA"⟩, ⟨2, "pB"⟩, ⟨3, "pC"⟩] := by
  exact (series_round_trip [⟨1, "pA"⟩, ⟨2, "pB"⟩, ⟨3, "pC"⟩]
    (fun n => if n = 1 then some ⟨1, "pA"⟩
      else if n = 2 then some ⟨2, "pB"⟩
      else if n = 3 then some ⟨3, "pC"⟩ else none)).2 (by decide)

/-! ### Claim C7: error policy of loading a series by id -/

/-- Claim C7: loading a series whose directory is missing fails with a
series error; a symlink-to-directory entry whose name is not numeric, or
whose test fails to load, is skipped and the scan continues; an entry
that is not a symlink to a directory makes the whole load raise
immediately. -/
theorem from_id_error_policy (load : Nat → Option TestRunH) :
    (from_id none load = .error .noSuchSeries)
    ∧ (∀ (s : String) (rest : List DirEntry) (acc : List TestRunH),
        from_id_go load (⟨EntryName.other s, true⟩ :: rest) acc
          = from_id_go load rest acc)
    ∧ (∀ (tid : Nat) (rest : List DirEntry) (acc : List TestRunH),
        load tid = none →
        from_id_go load (⟨EntryName.num tid, true⟩ :: rest) acc
          = from_id_go load rest acc)
    ∧ (∀ (e : DirEntry) (rest : List DirEntry) (acc : List TestRunH),
        e.is_symlink_dir = false →
        from_id_go load (e :: rest) acc = .error (.polluted e)) := by
  refine ⟨rfl, fun s rest acc => rfl, fun tid rest acc hl => ?_,
    fun e rest acc he => ?_⟩
  · simp [from_id_go, hl]
  · simp [from_id_go, he]

/-- Witness for claim C7: a failing load and a plain-file entry. -/
theorem from_id_error_policy_witness :
    from_id_go (fun _ => none)
        [⟨EntryName.num 4, true⟩] [] = from_id_go (fun _ => none) [] []
    ∧ from_id_go (fun _ => none)
        [⟨EntryName.num 4, false⟩] []
      = .error (.polluted ⟨EntryName.num 4, false⟩) := by
  refine ⟨?_, ?_⟩
  · exact (from_id_error_policy (fun _ => none)).2.2.1 4 [] [] rfl
  · exact (from_id_error_policy (fun _ => none)).2.2.2
      ⟨EntryName.num 4, false⟩ [] [] rfl

/-! ### Claim C10: add_tests is not atomic -/

theorem add_tests_go_fail (linkOk : TestRunH → Bool) (bad : TestRunH)
    (post : List TestRunH) (hbad : linkOk bad = false) :
    ∀ (pre : List TestRunH) (tests : TestMap) (links : List Nat),
    (∀ t ∈ pre, linkOk t = true) →
    add_tests_go linkOk (pre ++ bad :: post) tests links
      = ⟨(pre ++ [bad]).foldl (fun m t => dict_insert m t.id t) tests,
          links ++ pre.map (fun t => t.id), true⟩ := by
  intro pre
  induction pre with
  | nil =>
    intro tests links _
    simp [add_tests_go, hbad]
  | cons t rest ih =>
    intro tests links hall
    have ht : linkOk t = true := hall t (List.mem_cons_self t rest)
    have hred : add_tests_go linkOk ((t :: rest) ++ bad :: post) tests links
        = add_tests_go linkOk (rest ++ bad :: post)
            (dict_insert tests t.id t) (links ++ [t.id]) := by
      simp only [List.cons_append, add_tests_go, ht, if_pos]
      rfl
    rw [hred, ih (dict_insert tests t.id t) (links ++ [t.id])
      (fun u hu => hall u (List.mem_cons_of_mem t hu))]
    simp

/-- Claim C10: adding instances to a series is not atomic: when creating
the membership link fails for the i-th test, a series error is raised,
but the i-th test and every earlier one are already in the in-memory
tests dict, every earlier test is already linked, and nothing is rolled
back. -/
theorem add_tests_not_atomic (linkOk : TestRunH → Bool) (tests0 : TestMap)
    (pre : List TestRunH) (bad : TestRunH) (post : List TestRunH)
    (hpre : ∀ t ∈ pre, linkOk t = true) (hbad : linkOk bad = false) :
    (add_tests linkOk tests0 (pre ++ bad :: post)).errored = true
    ∧ (add_tests linkOk tests0 (pre ++ bad :: post)).tests
        = (pre ++ [bad]).foldl (fun m t => dict_insert m t.id t) tests0
    ∧ (add_tests linkOk tests0 (pre ++ bad :: post)).links
        = pre.map (fun t => t.id) := by
  have h := add_tests_go_fail linkOk bad post hbad pre tests0 [] hpre
  rw [add_tests, h]
  exact ⟨rfl, rfl, by simp⟩

/-- Witness for claim C10: the second of three tests fails to link; the
first two are inserted, only the first is linked, the third is
untouched. -/
theorem add_tests_not_atomic_witness :
    (add_tests (fun t => !(t.id == 2)) []
        [⟨1, "p1"⟩, ⟨2, "p2"⟩, ⟨3, "p3"⟩]).errored = true
    ∧ (add_tests (fun t => !(t.id == 2)) []
        [⟨1, "p1"⟩, ⟨2, "p2"⟩, ⟨3, "p3"⟩]).tests
      = (([⟨1, "p1"⟩] : List TestRunH) ++ ([⟨2, "p2"⟩] : List TestRunH)).foldl
          (fun (m : TestMap) (t : TestRunH) => dict_insert m t.id t)
          ([] : TestMap)
    ∧ (add_tests (fun t => !(t.id == 2)) []
        [⟨1, "p1"⟩, ⟨2, "p2"⟩, ⟨3, "p3"⟩]).links
      = ([⟨1, "p1"⟩] : List TestRunH).map (fun t => TestRunH.id t) := by
  exact add_tests_not_atomic (fun t => !(t.id == 2)) []
    [⟨1, "p1"⟩] ⟨2, "p2"⟩ [⟨3, "p3"⟩] (by decide) (by decide)

theorem mem_append_singleton_ne {u t : String} {l : List String}
    (hut : u ≠ t) : u ∈ l ++ [t] ↔ u ∈ l := by
  simp [hut]

theorem nodup_append_singleton {l : List String} {t : String}
    (hn : l.Nodup) (ht : t ∉ l) : (l ++ [t]).Nodup := by
  exact List.Nodup.append hn (List.nodup_singleton t)
    (fun a ha hb => ht ((List.mem_singleton.mp hb) ▸ ha))

theorem inv_ns_cases {names : List String} {s : SchedState} {t : String}
    (h : SchedInv names s) (ht : t ∈ s.notStarted) :
    t ∉ s.started ∧ t ∉ s.finished := by
  rcases h.partition t (h.ns_names t ht) with ⟨_, h2, h3⟩ | ⟨h1, _, _⟩ | ⟨h1, _, _⟩
  · exact ⟨h2, h3⟩
  · exact absurd ht h1
  · exact absurd ht h1

theorem inv_st_cases {names : List String} {s : SchedState} {t : String}
    (h : SchedInv names s) (ht : t ∈ s.started) :
    t ∉ s.notStarted ∧ t ∉ s.finished := by
  rcases h.partition t (h.st_names t ht) with ⟨_, h2, _⟩ | ⟨h1, _, h3⟩ | ⟨_, h2, _⟩
  · exact absurd ht h2
  · exact ⟨h1, h3⟩
  · exact absurd ht h2

theorem SchedInv.move_launch (names : List String) (s : SchedState)
    (t : String) (h : SchedInv names s) (ht : t ∈ s.notStarted) :
    SchedInv names
      { notStarted := s.notStarted.erase t,
        started := s.started ++ [t],
        finished := s.finished,
        launched := s.launched ++ [t],
        placeholders := s.placeholders,
        iter := s.iter } := by
  obtain ⟨hst, hfin⟩ := inv_ns_cases h ht
  refine ⟨?_, ?_, ?_, ?_, ?_, ?_, ?_, ?_⟩
  · intro u hu
    by_cases hut : u = t
    · subst hut
      exact Or.inr (Or.inl ⟨h.ns_nodup.not_mem_erase,
        List.mem_append.mpr (Or.inr (List.mem_singleton.mpr rfl)), hfin⟩)
    · rcases h.partition u hu with ⟨h1, h2, h3⟩ | ⟨h1, h2, h3⟩ | ⟨h1, h2, h3⟩
      · exact Or.inl ⟨(List.mem_erase_of_ne hut).mpr h1,
          fun hc => h2 ((mem_append_singleton_ne hut).mp hc), h3⟩
      · exact Or.inr (Or.inl ⟨fun hc => h1 (List.erase_subset _ _ hc),
          (mem_append_singleton_ne hut).mpr h2, h3⟩)
      · exact Or.inr (Or.inr ⟨fun hc => h1 (List.erase_subset _ _ hc),
          fun hc => h2 ((mem_append_singleton_ne hut).mp hc), h3⟩)
  · exact fun u hu => h.ns_names u (List.erase_subset _ _ hu)
  · intro u hu
    rcases List.mem_append.mp hu with hc | hc
    · exact h.st_names u hc
    · exact (List.mem_singleton.mp hc) ▸ h.ns_names t ht
  · exact h.fin_names
  · exact List.Nodup.erase _ h.ns_nodup
  · exact nodup_append_singleton h.st_nodup hst
  · exact h.fin_nodup
  · intro u hu
    rcases List.mem_append.mp hu with hc | hc
    · exact List.mem_append.mpr (Or.inl (h.st_launched u hc))
    · exact List.mem_append.mpr (Or.inr hc)

theorem SchedInv.move_skip (names : List String) (s : SchedState)
    (t : String) (P : List Placeholder)
    (h : SchedInv names s) (ht : t ∈ s.notStarted) :
    SchedInv names
      { notStarted := s.notStarted.erase t,
        started := s.started,
        finished := s.finished ++ [t],
        launched := s.launched,
        placeholders := P,
        iter := s.iter } := by
  obtain ⟨hst, hfin⟩ := inv_ns_cases h ht
  refine ⟨?_, ?_, ?_, ?_, ?_, ?_, ?_, ?_⟩
  · intro u hu
    by_cases hut : u = t
    · subst hut
      exact Or.inr (Or.inr ⟨h.ns_nodup.not_mem_erase, hst,
        List.mem_append.mpr (Or.inr (List.mem_singleton.mpr rfl))⟩)
    · rcases h.partition u hu with ⟨h1, h2, h3⟩ | ⟨h1, h2, h3⟩ | ⟨h1, h2, h3⟩
      · exact Or.inl ⟨(List.mem_erase_of_ne hut).mpr h1, h2,
          fun hc => h3 ((mem_append_singleton_ne hut).mp hc)⟩
      · exact Or.inr (Or.inl ⟨fun hc => h1 (List.erase_subset _ _ hc), h2,
          fun hc => h3 ((mem_append_singleton_ne hut).mp hc)⟩)
      · exact Or.inr (Or.inr ⟨fun hc => h1 (List.erase_subset _ _ hc), h2,
          (mem_append_singleton_ne hut).mpr h3⟩)
  · exact fun u hu => h.ns_names u (List.erase_subset _ _ hu)
  · exact h.st_names
  · intro u hu
    rcases List.mem_append.mp hu with hc | hc
    · exact h.fin_names u hc
    · exact (List.mem_singleton.mp hc) ▸ h.ns_names t ht
  · exact List.Nodup.erase _ h.ns_nodup
  · exact h.st_nodup
  · exact nodup_append_singleton h.fin_nodup hfin
  · exact h.st_launched

theorem SchedInv.move_done (names : List String) (s : SchedState)
    (t : String) (h : SchedInv names s) (ht : t ∈ s.started) :
    SchedInv names
      { s with started := s.started.erase t,
               finished := s.finished ++ [t] } := by
  obtain ⟨hns, hfin⟩ := inv_st_cases h ht
  refine ⟨?_, ?_, ?_, ?_, ?_, ?_, ?_, ?_⟩
  · intro u hu
    by_cases hut : u = t
    · subst hut
      exact Or.inr (Or.inr ⟨hns, h.st_nodup.not_mem_erase,
        List.mem_append.mpr (Or.inr (List.mem_singleton.mpr rfl))⟩)
    · rcases h.partition u hu with ⟨h1, h2, h3⟩ | ⟨h1, h2, h3⟩ | ⟨h1, h2, h3⟩
      · exact Or.inl ⟨h1, fun hc => h2 (List.erase_subset _ _ hc),
          fun hc => h3 ((mem_append_singleton_ne hut).mp hc)⟩
      · exact Or.inr (Or.inl ⟨h1, (List.mem_erase_of_ne hut).mpr h2,
          fun hc => h3 ((mem_append_singleton_ne hut).mp hc)⟩)
      · exact Or.inr (Or.inr ⟨h1, fun hc => h2 (List.erase_subset _ _ hc),
          (mem_append_singleton_ne hut).mpr h3⟩)
  · exact h.ns_names
  · exact fun u hu => h.st_names u (List.erase_subset _ _ hu)
  · intro u hu
    rcases List.mem_append.mp hu with hc | hc
    · exact h.fin_names u hc
    · exact (List.mem_singleton.mp hc) ▸ h.st_names t ht
  · exact h.ns_nodup
  · exact List.Nodup.erase _ h.st_nodup
  · exact nodup_append_singleton h.fin_nodup hfin
  · exact fun u hu => h.st_launched u (List.erase_subset _ _ hu)

theorem process_waiting_inv (cfg : SeriesCfg) (env : Env)
    (names : List String) (t : String) (s : SchedState)
    (h : SchedInv names s) (ht : t ∈ s.notStarted) :
    SchedInv names (process_waiting cfg env t s) := by
  cases hlook : lookupDef cfg t with
  | none => simp only [process_waiting, hlook]; exact h
  | some d =>
    simp only [process_waiting, hlook]
    by_cases h1 : (d.depends_on.all fun w => s.finished.contains w) = true
    · rw [if_pos h1]
      by_cases h2 : (d.depends_pass == "True") = true
      · rw [if_pos h2]
        by_cases h3 : all_tests_passed env s d.depends_on = true
        · rw [if_pos h3]
          exact SchedInv.move_launch names s t h ht
        · rw [if_neg h3]
          exact SchedInv.move_skip names s t _ h ht
      · rw [if_neg h2]
        exact SchedInv.move_launch names s t h ht
    · rw [if_neg h1]; exact h

theorem scan_waiting_inv (cfg : SeriesCfg) (env : Env)
    (names : List String) :
    ∀ (L : List String) (s : SchedState),
    SchedInv names s → (∀ u ∈ L, u ∈ s.notStarted) → L.Nodup →
    SchedInv names (scan_waiting cfg env L s) := by
  intro L
  induction L with
  | nil => intro s h _ _; exact h
  | cons u rest ih =>
    intro s h hsub hnd
    have hu : u ∈ s.notStarted := hsub u (List.mem_cons_self u rest)
    have h' := process_waiting_inv cfg env names u s h hu
    have hnd' := List.nodup_cons.mp hnd
    refine ih (process_waiting cfg env u s) h' ?_ hnd'.2
    intro x hx
    have hxu : x ≠ u := fun he => hnd'.1 (he ▸ hx)
    exact process_waiting_preserves_other_ns cfg env u x s hxu
      (hsub x (List.mem_cons_of_mem u hx))

theorem check_go_inv (env : Env) (names : List String) :
    ∀ (L : List String) (s : SchedState),
    SchedInv names s → (∀ u ∈ L, u ∈ s.started) → L.Nodup →
    SchedInv names (check_go env L s) := by
  intro L
  induction L with
  | nil => intro s h _ _; exact h
  | cons u rest ih =>
    intro s h hsub hnd
    have hnd' := List.nodup_cons.mp hnd
    by_cases hd : is_done env s u = true
    · have hred : check_go env (u :: rest) s
          = check_go env rest
              { s with started := s.started.erase u,
                       finished := s.finished ++ [u] } := by
        simp only [check_go]; rw [if_pos hd]
      rw [hred]
      have h' := SchedInv.move_done names s u h
        (hsub u (List.mem_cons_self u rest))
      refine ih _ h' ?_ hnd'.2
      intro x hx
      have hxu : x ≠ u := fun he => hnd'.1 (he ▸ hx)
      exact (List.mem_erase_of_ne hxu).mpr (hsub x (List.mem_cons_of_mem u hx))
    · have hred : check_go env (u :: rest) s = check_go env rest s := by
        simp only [check_go]; rw [if_neg hd]
      rw [hred]
      exact ih s h (fun x hx => hsub x (List.mem_cons_of_mem u hx)) hnd'.2

theorem loop_iteration_inv (cfg : SeriesCfg) (env : Env)
    (names : List String) (s : SchedState) (h : SchedInv names s) :
    SchedInv names (loop_iteration cfg env s) := by
  have h1 : SchedInv names (check_and_update env s) :=
    check_go_inv env names s.started s h (fun _ hu => hu) h.st_nodup
  have h2 := scan_waiting_inv cfg env names
    (check_and_update env s).notStarted (check_and_update env s) h1
    (fun _ hu => hu) h1.ns_nodup
  exact ⟨h2.partition, h2.ns_names, h2.st_names, h2.fin_names,
    h2.ns_nodup, h2.st_nodup, h2.fin_nodup, h2.st_launched⟩

theorem root_names_subset (cfg : SeriesCfg) :
    ∀ t ∈ root_names cfg, t ∈ testNames cfg := by
  intro t ht
  simp only [root_names, List.mem_map, List.mem_filter] at ht
  obtain ⟨kv, ⟨hm, _⟩, hfst⟩ := ht
  exact hfst ▸ List.mem_map_of_mem Prod.fst hm

theorem root_names_nodup (cfg : SeriesCfg)
    (hnodup : (testNames cfg).Nodup) : (root_names cfg).Nodup := by
  have hsub : List.Sublist (root_names cfg) (testNames cfg) :=
    List.Sublist.map Prod.fst (List.filter_sublist cfg)
  exact List.Nodup.sublist hsub hnodup

theorem kickoff_inv (cfg : SeriesCfg)
    (hnodup : (testNames cfg).Nodup)
    (hroot : root_names cfg ≠ []) :
    SchedInv (testNames cfg) (kickoff cfg) := by
  obtain ⟨hst, hla, hfin, hpl, hit, hns1, hns2⟩ :=
    kickoff_go_spec (testNames cfg) cfg initState
  have hsteq : (kickoff cfg).started = root_names cfg := by
    show (kickoff_go (testNames cfg) cfg initState).started = root_names cfg
    rw [hst]; rfl
  have hlaeq : (kickoff cfg).launched = root_names cfg := by
    show (kickoff_go (testNames cfg) cfg initState).launched = root_names cfg
    rw [hla]; rfl
  have hfineq : (kickoff cfg).finished = [] := by
    show (kickoff_go (testNames cfg) cfg initState).finished = []
    rw [hfin]
    rfl
  have hnseq : (kickoff cfg).notStarted
      = (testNames cfg).filter
          (fun x => !((kickoff cfg).started.contains x)) := hns2 hroot
  refine ⟨?_, ?_, ?_, ?_, ?_, ?_, ?_, ?_⟩
  · intro t ht
    by_cases htr : t ∈ (kickoff cfg).started
    · refine Or.inr (Or.inl ⟨?_, htr, ?_⟩)
      · rw [hnseq]
        intro hc
        have := (List.mem_filter.mp hc).2
        rw [Bool.not_eq_true', ← Bool.not_eq_true] at this
        exact this ((contains_iff_mem _ _).mpr htr)
      · rw [hfineq]; exact List.not_mem_nil t
    · refine Or.inl ⟨?_, htr, ?_⟩
      · rw [hnseq]
        refine List.mem_filter.mpr ⟨ht, ?_⟩
        rw [Bool.not_eq_true']
        cases hc : (kickoff cfg).started.contains t
        · rfl
        · exact absurd ((contains_iff_mem _ _).mp hc) htr
      · rw [hfineq]; exact List.not_mem_nil t
  · intro t ht
    rw [hnseq] at ht
    exact (List.mem_filter.mp ht).1
  · intro t ht
    rw [hsteq] at ht
    exact root_names_subset cfg t ht
  · intro t ht
    rw [hfineq] at ht
    cases ht
  · rw [hnseq]
    exact List.Nodup.filter _ hnodup
  · rw [hsteq]
    exact root_names_nodup cfg hnodup
  · rw [hfineq]
    exact List.nodup_nil
  · intro t ht
    rw [hlaeq]
    rw [hsteq] at ht
    exact ht

theorem sched_after_inv (cfg : SeriesCfg) (env : Env)
    (hnodup : (testNames cfg).Nodup)
    (hroot : root_names cfg ≠ []) :
    ∀ n, SchedInv (testNames cfg) (sched_after cfg env n) := by
  intro n
  induction n with
  | zero => exact kickoff_inv cfg hnodup hroot
  | succ n ihn => exact loop_iteration_inv cfg env _ _ ihn

/-- Counterexample to claim C8 as stated: when the two definitions depend
on each other, no definition has an empty prerequisite set, so the
kick-off launches nothing and never recomputes `self.not_started`; right
after kick-off the name `a` belongs to none of the three sets. -/
theorem state_sets_partition_cex :
    "a" ∈ testNames
      [("a", ⟨["b"], "False", 1⟩), ("b", ⟨["a"], "False", 1⟩)]
    ∧ "a" ∉ (sched_after
        [("a", ⟨["b"], "False", 1⟩), ("b", ⟨["a"], "False", 1⟩)]
        ⟨fun _ => 0, fun _ => true⟩ 0).notStarted
    ∧ "a" ∉ (sched_after
        [("a", ⟨["b"], "False", 1⟩), ("b", ⟨["a"], "False", 1⟩)]
        ⟨fun _ => 0, fun _ => true⟩ 0).started
    ∧ "a" ∉ (sched_after
        [("a", ⟨["b"], "False", 1⟩), ("b", ⟨["a"], "False", 1⟩)]
        ⟨fun _ => 0, fun _ => true⟩ 0).finished := by
  refine ⟨by decide, by decide, by decide, by decide⟩

/-- Claim C8 (amended): provided at least one definition has an empty
prerequisite set — which holds in particular for every nonempty acyclic
graph whose prerequisites are all defined — every test name of the series
belongs to exactly one of the three sets not_started, started and
finished, right after the initial kick-off and at every later loop
iteration boundary. -/
theorem state_sets_partition (cfg : SeriesCfg) (env : Env)
    (hnodup : (testNames cfg).Nodup)
    (hroot : ∃ p ∈ cfg, p.2.depends_on = []) :
    ∀ (n : Nat), ∀ t ∈ testNames cfg,
      ExactlyOne (sched_after cfg env n) t := by
  have hrn : root_names cfg ≠ [] := by
    obtain ⟨⟨t, d⟩, hm, he⟩ := hroot
    intro hc
    have he' : d.depends_on = [] := he
    have htr : t ∈ root_names cfg := by
      simp only [root_names, List.mem_map]
      exact ⟨(t, d), List.mem_filter.mpr ⟨hm, by simp [he']⟩, rfl⟩
    rw [hc] at htr
    cases htr
  exact fun n => (sched_after_inv cfg env hnodup hrn n).partition

/-- Witness for the amended claim C8 at a two-test chain after one
iteration. -/
theorem state_sets_partition_witness :
    ExactlyOne (sched_after
        [("a", ⟨[], "False", 1⟩), ("b", ⟨["a"], "False", 1⟩)]
        ⟨fun _ => 0, fun _ => true⟩ 1) "b" := by
  exact state_sets_partition
    [("a", ⟨[], "False", 1⟩), ("b", ⟨["a"], "False", 1⟩)]
    ⟨fun _ => 0, fun _ => true⟩ (by decide)
    ⟨("a", ⟨[], "False", 1⟩), by simp, rfl⟩ 1 "b" (by simp [testNames])

/-! ### Termination of the poll loop (claim C3) -/

theorem process_waiting_iter (cfg : SeriesCfg) (env : Env) (u : String)
    (s : SchedState) : (process_waiting cfg env u s).iter = s.iter := by
  cases hlook : lookupDef cfg u with
  | none => simp only [process_waiting, hlook]
  | some d =>
    simp only [process_waiting, hlook]
    by_cases h1 : (d.depends_on.all fun w => s.finished.contains w) = true
    · rw [if_pos h1]
      by_cases h2 : (d.depends_pass == "True") = true
      · rw [if_pos h2]
        by_cases h3 : all_tests_passed env s d.depends_on = true
        · rw [if_pos h3]
          rfl
        · rw [if_neg h3]
      · rw [if_neg h2]
        rfl
    · rw [if_neg h1]

theorem scan_waiting_iter (cfg : SeriesCfg) (env : Env) :
    ∀ (L : List String) (s : SchedState),
    (scan_waiting cfg env L s).iter = s.iter := by
  intro L
  induction L with
  | nil => intro s; rfl
  | cons u rest ih =>
    intro s
    show (scan_waiting cfg env rest (process_waiting cfg env u s)).iter = s.iter
    rw [ih, process_waiting_iter]

theorem process_waiting_launched_mono (cfg : SeriesCfg) (env : Env)
    (u : String) (s : SchedState) (x : String)
    (hx : x ∈ s.launched) : x ∈ (process_waiting cfg env u s).launched := by
  cases hlook : lookupDef cfg u with
  | none => simp only [process_waiting, hlook]; exact hx
  | some d =>
    simp only [process_waiting, hlook]
    by_cases h1 : (d.depends_on.all fun w => s.finished.contains w) = true
    · rw [if_pos h1]
      by_cases h2 : (d.depends_pass == "True") = true
      · rw [if_pos h2]
        by_cases h3 : all_tests_passed env s d.depends_on = true
        · rw [if_pos h3]
          exact List.mem_append.mpr (Or.inl hx)
        · rw [if_neg h3]
          exact hx
      · rw [if_neg h2]
        exact List.mem_append.mpr (Or.inl hx)
    · rw [if_neg h1]; exact hx

theorem check_and_update_notStarted (env : Env) (s : SchedState) :
    (check_and_update env s).notStarted = s.notStarted :=
  (check_go_frame env s.started s).1

theorem check_and_update_iter (env : Env) (s : SchedState) :
    (check_and_update env s).iter = s.iter :=
  (check_go_frame env s.started s).2.2.2

theorem loop_iteration_iter (cfg : SeriesCfg) (env : Env)
    (s : SchedState) : (loop_iteration cfg env s).iter = s.iter + 1 := by
  show (scan_waiting cfg env (check_and_update env s).notStarted
      (check_and_update env s)).iter + 1 = s.iter + 1
  rw [scan_waiting_iter, check_and_update_iter]

theorem process_waiting_ns_nodup (cfg : SeriesCfg) (env : Env)
    (u : String) (s : SchedState) (h : s.notStarted.Nodup) :
    (process_waiting cfg env u s).notStarted.Nodup := by
  cases hlook : lookupDef cfg u with
  | none => simp only [process_waiting, hlook]; exact h
  | some d =>
    simp only [process_waiting, hlook]
    by_cases h1 : (d.depends_on.all fun w => s.finished.contains w) = true
    · rw [if_pos h1]
      by_cases h2 : (d.depends_pass == "True") = true
      · rw [if_pos h2]
        by_cases h3 : all_tests_passed env s d.depends_on = true
        · rw [if_pos h3]
          exact List.Nodup.erase _ h
        · rw [if_neg h3]
          exact List.Nodup.erase _ h
      · rw [if_neg h2]
        exact List.Nodup.erase _ h
    · rw [if_neg h1]; exact h

theorem scan_waiting_ns_nodup (cfg : SeriesCfg) (env : Env) :
    ∀ (L : List String) (s : SchedState), s.notStarted.Nodup →
    (scan_waiting cfg env L s).notStarted.Nodup := by
  intro L
  induction L with
  | nil => intro s h; exact h
  | cons u rest ih =>
    intro s h
    exact ih (process_waiting cfg env u s) (process_waiting_ns_nodup cfg env u s h)

theorem loop_iteration_ns_subset (cfg : SeriesCfg) (env : Env)
    (s : SchedState) (x : String)
    (hx : x ∈ (loop_iteration cfg env s).notStarted) :
    x ∈ s.notStarted := by
  have hx' : x ∈ (check_and_update env s).notStarted :=
    scan_waiting_ns_subset cfg env (check_and_update env s).notStarted
      (check_and_update env s) x hx
  rw [check_and_update_notStarted] at hx'
  exact hx'

theorem loop_iteration_ns_nodup (cfg : SeriesCfg) (env : Env)
    (s : SchedState) (h : s.notStarted.Nodup) :
    (loop_iteration cfg env s).notStarted.Nodup :=
  scan_waiting_ns_nodup cfg env (check_and_update env s).notStarted
    (check_and_update env s)
    (by rw [check_and_update_notStarted]; exact h)

theorem check_go_clears (env : Env) :
    ∀ (L : List String) (s : SchedState), s.started = L →
    (∀ u ∈ L, is_done env s u = true) →
    (check_go env L s).started = [] := by
  intro L
  induction L with
  | nil => intro s hs _; exact hs
  | cons u rest ih =>
    intro s hs hdone
    have hd : is_done env s u = true := hdone u (List.mem_cons_self _ _)
    have hred : check_go env (u :: rest) s
        = check_go env rest
            { s with started := s.started.erase u,
                     finished := s.finished ++ [u] } := by
      simp only [check_go]; rw [if_pos hd]
    rw [hred]
    apply ih
    · show s.started.erase u = rest
      rw [hs]
      exact List.erase_cons_head u rest
    · intro x hx
      exact hdone x (List.mem_cons_of_mem u hx)

theorem exists_min_rank (rank : String → Nat) :
    ∀ (l : List String), l ≠ [] →
    ∃ t ∈ l, ∀ u ∈ l, rank t ≤ rank u := by
  intro l
  induction l with
  | nil => intro h; exact absurd rfl h
  | cons a rest ih =>
    intro _
    by_cases hr : rest = []
    · subst hr
      refine ⟨a, List.mem_cons_self a [], ?_⟩
      intro u hu
      rw [List.mem_singleton.mp hu]
    · obtain ⟨t, htm, htmin⟩ := ih hr
      by_cases hc : rank a ≤ rank t
      · refine ⟨a, List.mem_cons_self _ _, ?_⟩
        intro u hu
        rcases List.mem_cons.mp hu with he | hm
        · rw [he]
        · exact Nat.le_trans hc (htmin u hm)
      · refine ⟨t, List.mem_cons_of_mem a htm, ?_⟩
        intro u hu
        rcases List.mem_cons.mp hu with he | hm
        · rw [he]; exact Nat.le_of_lt (Nat.lt_of_not_le hc)
        · exact htmin u hm

theorem lookupDef_isSome_of_mem (cfg : SeriesCfg) :
    ∀ t ∈ testNames cfg, ∃ d, lookupDef cfg t = some d := by
  induction cfg with
  | nil => intro t ht; cases ht
  | cons kv rest ih =>
    intro t ht
    by_cases hk : (kv.1 == t) = true
    · exact ⟨kv.2, by simp only [lookupDef, hk, if_pos]⟩
    · have hne : kv.1 ≠ t := by simpa using hk
      have htr : t ∈ testNames rest := by
        rcases List.mem_cons.mp ht with he | hm
        · exact absurd he.symm hne
        · exact hm
      obtain ⟨d, hd⟩ := ih t htr
      exact ⟨d, by simp only [lookupDef, hk, if_neg]; exact hd⟩

theorem lookupDef_mem (cfg : SeriesCfg) (t : String) (d : TestDef)
    (h : lookupDef cfg t = some d) : (t, d) ∈ cfg := by
  induction cfg with
  | nil => cases h
  | cons kv rest ih =>
    by_cases hk : (kv.1 == t) = true
    · have he : kv.1 = t := by simpa using hk
      have hv : kv.2 = d := by
        simp only [lookupDef, hk, if_pos] at h
        exact Option.some.inj h
      have : kv = (t, d) := by
        rw [← he, ← hv]
      exact this ▸ List.mem_cons_self kv rest
    · simp only [lookupDef, hk, if_neg] at h
      exact List.mem_cons_of_mem kv (ih h)

theorem length_lt_of_removed {l l' : List String}
    (hsub : ∀ x ∈ l', x ∈ l) (hnd : l.Nodup) (hnd' : l'.Nodup)
    {t : String} (ht : t ∈ l) (ht' : t ∉ l') :
    l'.length < l.length := by
  rw [← List.toFinset_card_of_nodup hnd, ← List.toFinset_card_of_nodup hnd']
  apply Finset.card_lt_card
  have h1 : l'.toFinset ⊆ l.toFinset := by
    intro x hx
    exact List.mem_toFinset.mpr (hsub x (List.mem_toFinset.mp hx))
  refine (Finset.ssubset_iff_of_subset h1).mpr ?_
  exact ⟨t, List.mem_toFinset.mpr ht, fun hc => ht' (List.mem_toFinset.mp hc)⟩

theorem length_le_of_subset_nodup {l l' : List String}
    (hsub : ∀ x ∈ l', x ∈ l) (hnd' : l'.Nodup) :
    l'.length ≤ l.length := by
  rw [← List.toFinset_card_of_nodup hnd']
  calc l'.toFinset.card
      ≤ l.toFinset.card := by
        apply Finset.card_le_card
        intro x hx
        exact List.mem_toFinset.mpr (hsub x (List.mem_toFinset.mp hx))
    _ ≤ l.length := List.toFinset_card_le l

theorem doneTime_le_max_done (env : Env) :
    ∀ (names : List String), ∀ t ∈ names,
    env.doneTime t ≤ max_done env names := by
  intro names
  induction names with
  | nil => intro t ht; cases ht
  | cons a rest ih =>
    intro t ht
    rcases List.mem_cons.mp ht with he | hm
    · rw [he]
      exact Nat.le_max_left _ _
    · exact Nat.le_trans (ih t hm) (Nat.le_max_right _ _)

theorem scan_waiting_removes (cfg : SeriesCfg) (env : Env)
    (t : String) (d : TestDef) (hlook : lookupDef cfg t = some d) :
    ∀ (L : List String) (s : SchedState),
    t ∈ L → t ∈ s.notStarted → s.notStarted.Nodup →
    (∀ p ∈ d.depends_on, p ∈ s.finished) →
    t ∉ (scan_waiting cfg env L s).notStarted := by
  intro L
  induction L with
  | nil => intro s ht _ _ _; cases ht
  | cons u rest ih =>
    intro s htL htns hnd hprev
    show t ∉ (scan_waiting cfg env rest (process_waiting cfg env u s)).notStarted
    by_cases hut : u = t
    · subst hut
      have hready : (d.depends_on.all fun w => s.finished.contains w) = true := by
        rw [List.all_eq_true]
        intro p hp
        exact (contains_iff_mem _ _).mpr (hprev p hp)
      have hrem : u ∉ (process_waiting cfg env u s).notStarted := by
        simp only [process_waiting, hlook]
        rw [if_pos hready]
        by_cases h2 : (d.depends_pass == "True") = true
        · rw [if_pos h2]
          by_cases h3 : all_tests_passed env s d.depends_on = true
          · rw [if_pos h3]
            exact List.Nodup.not_mem_erase hnd
          · rw [if_neg h3]
            exact List.Nodup.not_mem_erase hnd
        · rw [if_neg h2]
          exact List.Nodup.not_mem_erase hnd
      intro hcon
      exact hrem (scan_waiting_ns_subset cfg env rest _ u hcon)
    · have htns' : t ∈ (process_waiting cfg env u s).notStarted :=
        process_waiting_preserves_other_ns cfg env u t s
          (fun he => hut he.symm) htns
      have hnd' : (process_waiting cfg env u s).notStarted.Nodup :=
        process_waiting_ns_nodup cfg env u s hnd
      have hprev' : ∀ p ∈ d.depends_on,
          p ∈ (process_waiting cfg env u s).finished :=
        fun p hp => process_waiting_finished_mono cfg env u s p (hprev p hp)
      have htL' : t ∈ rest := by
        rcases List.mem_cons.mp htL with he | hm
        · exact absurd he.symm hut
        · exact hm
      exact ih (process_waiting cfg env u s) htL' htns' hnd' hprev'

theorem loop_iteration_progress (cfg : SeriesCfg) (env : Env)
    (rank : String → Nat)
    (hclosed : ∀ p ∈ cfg, ∀ q ∈ p.2.depends_on, q ∈ testNames cfg)
    (hrank : ∀ p ∈ cfg, ∀ q ∈ p.2.depends_on, rank q < rank p.1)
    (s : SchedState) (h : SchedInv (testNames cfg) s)
    (hne : s.notStarted ≠ [])
    (hiter : max_done env (testNames cfg) ≤ s.iter) :
    (loop_iteration cfg env s).notStarted.length
      < s.notStarted.length := by
  have hdone : ∀ u ∈ s.started, is_done env s u = true := by
    intro u hu
    have hc : s.launched.contains u = true :=
      (contains_iff_mem _ _).mpr (h.st_launched u hu)
    have hle : env.doneTime u ≤ s.iter :=
      Nat.le_trans (doneTime_le_max_done env (testNames cfg) u
        (h.st_names u hu)) hiter
    simp [is_done, hc, hle, h.st_launched u hu]
  have hstarted1 : (check_and_update env s).started = [] :=
    check_go_clears env s.started s rfl hdone
  have hInv1 : SchedInv (testNames cfg) (check_and_update env s) :=
    check_go_inv env (testNames cfg) s.started s h (fun _ hu => hu)
      h.st_nodup
  have hns1 : (check_and_update env s).notStarted = s.notStarted :=
    check_and_update_notStarted env s
  obtain ⟨t, htm, htmin⟩ := exists_min_rank rank s.notStarted hne
  obtain ⟨d, hlook⟩ := lookupDef_isSome_of_mem cfg t (h.ns_names t htm)
  have hmemcfg : (t, d) ∈ cfg := lookupDef_mem cfg t d hlook
  have hprevfin : ∀ p ∈ d.depends_on,
      p ∈ (check_and_update env s).finished := by
    intro p hp
    have hpn : p ∈ testNames cfg := hclosed (t, d) hmemcfg p hp
    have hplt : rank p < rank t := hrank (t, d) hmemcfg p hp
    have hpns : p ∉ (check_and_update env s).notStarted := by
      rw [hns1]
      intro hc
      exact absurd (htmin p hc) (Nat.not_le_of_lt hplt)
    rcases hInv1.partition p hpn with ⟨h1, _, _⟩ | ⟨_, h2, _⟩ | ⟨_, _, h3⟩
    · exact absurd h1 hpns
    · rw [hstarted1] at h2; cases h2
    · exact h3
  have htm1 : t ∈ (check_and_update env s).notStarted := by
    rw [hns1]; exact htm
  have hrem : t ∉ (scan_waiting cfg env
      (check_and_update env s).notStarted (check_and_update env s)).notStarted :=
    scan_waiting_removes cfg env t d hlook
      (check_and_update env s).notStarted (check_and_update env s)
      htm1 htm1 hInv1.ns_nodup hprevfin
  have hlen := length_lt_of_removed
    (fun x hx => loop_iteration_ns_subset cfg env s x hx)
    h.ns_nodup
    (loop_iteration_ns_nodup cfg env s h.ns_nodup)
    htm
    (fun hc => hrem hc)
  exact hlen

theorem poll_loop_terminates (cfg : SeriesCfg) (env : Env)
    (rank : String → Nat)
    (hclosed : ∀ p ∈ cfg, ∀ q ∈ p.2.depends_on, q ∈ testNames cfg)
    (hrank : ∀ p ∈ cfg, ∀ q ∈ p.2.depends_on, rank q < rank p.1) :
    ∀ (fuel : Nat) (s : SchedState),
    SchedInv (testNames cfg) s →
    (max_done env (testNames cfg) - s.iter) + s.notStarted.length ≤ fuel →
    ∃ final, poll_loop cfg env fuel s = some final
      ∧ final.notStarted = [] ∧ SchedInv (testNames cfg) final := by
  intro fuel
  induction fuel with
  | zero =>
    intro s h hmu
    by_cases hne : s.notStarted.isEmpty = true
    · refine ⟨s, ?_, List.isEmpty_iff.mp hne, h⟩
      simp [poll_loop, hne]
    · exfalso
      have hne' : s.notStarted ≠ [] := by
        simpa [List.isEmpty_iff] using hne
      have hlen : 0 < s.notStarted.length := List.length_pos.mpr hne'
      omega
  | succ fuel ih =>
    intro s h hmu
    by_cases hne : s.notStarted.isEmpty = true
    · refine ⟨s, ?_, List.isEmpty_iff.mp hne, h⟩
      simp [poll_loop, hne]
    · have hne' : s.notStarted ≠ [] := by
        simpa [List.isEmpty_iff] using hne
      have h' := loop_iteration_inv cfg env (testNames cfg) s h
      have hmu' : (max_done env (testNames cfg)
            - (loop_iteration cfg env s).iter)
          + (loop_iteration cfg env s).notStarted.length ≤ fuel := by
        rw [loop_iteration_iter]
        by_cases hit : max_done env (testNames cfg) ≤ s.iter
        · have hlt := loop_iteration_progress cfg env rank hclosed hrank
            s h hne' hit
          omega
        · have hle := length_le_of_subset_nodup
            (fun x hx => loop_iteration_ns_subset cfg env s x hx)
            (loop_iteration_ns_nodup cfg env s h.ns_nodup)
          omega
      obtain ⟨final, hpoll, hnil, hfin⟩ := ih (loop_iteration cfg env s) h' hmu'
      refine ⟨final, ?_, hnil, hfin⟩
      show (if s.notStarted.isEmpty = true then some s
        else poll_loop cfg env fuel (loop_iteration cfg env s)) = some final
      rw [if_neg hne]
      exact hpoll

/-- Counterexample to claim C3 as stated: a single definition `a` with
no prerequisites, whose instances complete immediately (done from
iteration 0 on).  The kick-off launches `a` and the pending set becomes
empty, so the loop exits at once — with `a` still in `started` and the
`finished` set empty: the loop has terminated while `a` never reaches a
terminal state in the scheduler's bookkeeping. -/
theorem loop_exit_leaves_running_cex :
    (run_series_manager [("a", ⟨[], "False", 1⟩)]
        ⟨fun _ => 0, fun _ => true⟩ 3).map
      (fun s => (s.notStarted, s.started, s.finished))
      = some ([], ["a"], []) := by decide

/-- Claim C3 (amended): for an acyclic dependency graph (witnessed by a
rank function decreasing along prerequisite edges, with all
prerequisites defined) and any environment in which every launched
test's instances eventually complete, the poll loop terminates, and at
exit no definition is still pending: every definition has been launched
(`started` or `finished`) or skipped (`finished`).  Definitions may
still be `started` (running) when the loop exits; they need not have
reached a terminal state. -/
theorem acyclic_loop_terminates (cfg : SeriesCfg) (env : Env)
    (rank : String → Nat)
    (hnodup : (testNames cfg).Nodup)
    (hclosed : ∀ p ∈ cfg, ∀ q ∈ p.2.depends_on, q ∈ testNames cfg)
    (hrank : ∀ p ∈ cfg, ∀ q ∈ p.2.depends_on, rank q < rank p.1) :
    ∃ fuel final, run_series_manager cfg env fuel = some final
      ∧ final.notStarted = []
      ∧ ∀ t ∈ testNames cfg, t ∈ final.started ∨ t ∈ final.finished := by
  by_cases hnil : cfg = []
  · subst hnil
    exact ⟨0, initState, rfl, rfl, fun t ht => absurd ht (by simp [testNames])⟩
  · have hnames : testNames cfg ≠ [] := by
      intro hc
      apply hnil
      cases cfg with
      | nil => rfl
      | cons kv rest => simp [testNames] at hc
    have hroot : root_names cfg ≠ [] := by
      obtain ⟨t, htm, htmin⟩ := exists_min_rank rank (testNames cfg) hnames
      obtain ⟨d, hlook⟩ := lookupDef_isSome_of_mem cfg t htm
      have hmem := lookupDef_mem cfg t d hlook
      have hde : d.depends_on = [] := by
        cases hdo : d.depends_on with
        | nil => rfl
        | cons q qs =>
          exfalso
          have hq : q ∈ d.depends_on := by
            rw [hdo]; exact List.mem_cons_self _ _
          have h1 := hclosed (t, d) hmem q hq
          have h2 : rank q < rank t := hrank (t, d) hmem q hq
          have h3 := htmin q h1
          omega
      intro hc
      have htr : t ∈ root_names cfg := by
        simp only [root_names, List.mem_map]
        exact ⟨(t, d), List.mem_filter.mpr ⟨hmem, by simp [hde]⟩, rfl⟩
      rw [hc] at htr
      cases htr
    have hki := kickoff_inv cfg hnodup hroot
    obtain ⟨final, hpoll, hnil', hfin⟩ :=
      poll_loop_terminates cfg env rank hclosed hrank
        ((max_done env (testNames cfg) - (kickoff cfg).iter)
          + (kickoff cfg).notStarted.length)
        (kickoff cfg) hki (Nat.le_refl _)
    refine ⟨_, final, hpoll, hnil', ?_⟩
    intro t ht
    rcases hfin.partition t ht with ⟨h1, _, _⟩ | ⟨_, h2, _⟩ | ⟨_, _, h3⟩
    · rw [hnil'] at h1; cases h1
    · exact Or.inl h2
    · exact Or.inr h3

/-- Witness for the amended claim C3 at a two-test chain with the rank
function ordering `b` after `a`. -/
theorem acyclic_loop_terminates_witness :
    ∃ fuel final, run_series_manager
        [("a", ⟨[], "False", 1⟩), ("b", ⟨["a"], "True", 1⟩)]
        ⟨fun _ => 0, fun _ => true⟩ fuel = some final
      ∧ final.notStarted = []
      ∧ ∀ t ∈ testNames
          [("a", ⟨[], "False", 1⟩), ("b", ⟨["a"], "True", 1⟩)],
          t ∈ final.started ∨ t ∈ final.finished := by
  exact acyclic_loop_terminates
    [("a", ⟨[], "False", 1⟩), ("b", ⟨["a"], "True", 1⟩)]
    ⟨fun _ => 0, fun _ => true⟩
    (fun x => if x = "b" then 1 else 0)
    (by decide) (by decide) (by decide)

end Pavilion
